/-
Verification of the channel/label resolution pipeline and the three
anomaly detectors of the TimeEval-algorithms sources
(std/algorithm.py, subsequence_if/algorithm.py, dae/model.py).

The CSV table is modelled column-wise: a list of (column name, column
values) pairs, values as exact rationals.  Column names are lists of
characters; the reserved label prefix is the character list of
"is_anomaly".  Fallible pandas/numpy operations (column lookup,
list.index, reductions over an empty axis) are modelled with Option.
numpy NaN results (mean/std of an empty selection) are modelled as
Option.none.
-/
import Mathlib

set_option maxHeartbeats 1000000
set_option maxRecDepth 8000

/-- Column names, modelled as lists of characters. -/
abbrev CName := List Char

/-- The character list of a string literal. -/
def strN (s : String) : CName := s.data

/-- Python str.startswith on character lists. -/
def startsWithN : CName → CName → Bool
  | [], _ => true
  | _ :: _, [] => false
  | a :: p, b :: n => a = b && startsWithN p n

/-- The reserved label-column prefix "is_anomaly". -/
def anomP : CName := strN "is_anomaly"

/-- The per-channel label naming convention stem "is_anomaly_". -/
def anomU : CName := strN "is_anomaly_"

theorem startsWithN_self_append (p r : CName) : startsWithN p (p ++ r) = true := by
  induction p with
  | nil => rfl
  | cons a p ih => simp [startsWithN, ih]

theorem anomU_eq : anomU = anomP ++ [Char.ofNat 95] := by decide

theorem startsWithN_anomU (c : CName) : startsWithN anomP (anomU ++ c) = true := by
  rw [anomU_eq, List.append_assoc]
  exact startsWithN_self_append _ _

theorem anomU_append_ne_anomP (c : CName) : anomU ++ c ≠ anomP := by
  intro h
  have h2 := congrArg List.length h
  rw [List.length_append] at h2
  have hu : anomU.length = 11 := by decide
  have hp : anomP.length = 10 := by decide
  omega

theorem anomU_append_inj {c c' : CName} (h : anomU ++ c = anomU ++ c') : c = c' :=
  List.append_cancel_left h

/-- Option-valued traversal of a list, mirroring a Python loop of
fallible lookups: the whole loop fails as soon as one lookup fails. -/
def optMapM (f : α → Option β) : List α → Option (List β)
  | [] => some []
  | a :: l =>
    match f a with
    | none => none
    | some b =>
      match optMapM f l with
      | none => none
      | some bs => some (b :: bs)

theorem optMapM_nil (f : α → Option β) : optMapM f [] = some [] := rfl

theorem optMapM_cons (f : α → Option β) (a : α) (l : List α) :
    optMapM f (a :: l) =
      match f a with
      | none => none
      | some b =>
        match optMapM f l with
        | none => none
        | some bs => some (b :: bs) := rfl

theorem optMapM_eq_map {f : α → Option β} {g : α → β} :
    ∀ {l : List α}, (∀ a ∈ l, f a = some (g a)) → optMapM f l = some (l.map g)
  | [], _ => rfl
  | a :: l, h => by
    have ha := h a (List.mem_cons_self a l)
    have hl := optMapM_eq_map (f := f) (g := g) (l := l)
      (fun x hx => h x (List.mem_cons_of_mem a hx))
    simp [optMapM, ha, hl]

theorem optMapM_map (f : β → Option γ) (g : α → β) :
    ∀ (l : List α), optMapM f (l.map g) = optMapM (fun a => f (g a)) l
  | [] => rfl
  | a :: l => by
    simp only [List.map_cons, optMapM, optMapM_map f g l]

theorem optMapM_append (f : α → Option β) :
    ∀ (l₁ l₂ : List α), optMapM f (l₁ ++ l₂) =
      (optMapM f l₁).bind (fun b₁ => (optMapM f l₂).map (fun b₂ => b₁ ++ b₂))
  | [], l₂ => by
    cases h : optMapM f l₂ <;> simp [optMapM, h]
  | a :: l₁, l₂ => by
    rw [List.cons_append, optMapM_cons, optMapM_cons, optMapM_append f l₁ l₂]
    cases f a <;> cases optMapM f l₁ <;> cases optMapM f l₂ <;> simp

theorem optMapM_singleton (f : α → Option β) (a : α) :
    optMapM f [a] = (f a).map (fun b => [b]) := by
  cases h : f a <;> simp [optMapM, h]

theorem optMapM_range_get {l : List α} (g : α → β) :
    ∀ {n : Nat}, n ≤ l.length →
      optMapM (fun i => l[i]?.map g) (List.range n) = some ((l.take n).map g)
  | 0, _ => by simp [optMapM]
  | n + 1, h => by
    have ih := optMapM_range_get (l := l) g (n := n) (Nat.le_of_succ_le h)
    have hn : n < l.length := h
    obtain ⟨y, hx⟩ : ∃ y, l[n]? = some y := ⟨l.get ⟨n, hn⟩, List.getElem?_eq_getElem hn⟩
    rw [List.range_succ, optMapM_append, ih, optMapM_singleton]
    simp only [hx, Option.map_some, Option.some_bind, List.take_succ, Option.toList_some,
      List.map_append, List.map_cons, List.map_nil, Option.map_some']

/-- If f agrees with mapping h over the results of g on l, the traversals agree. -/
theorem optMapM_map_val {g : α → Option β} {h : β → γ} {f : α → Option γ} :
    ∀ {l : List α}, (∀ a ∈ l, f a = (g a).map h) →
      optMapM f l = (optMapM g l).map (List.map h)
  | [], _ => rfl
  | a :: l, hp => by
    have ha := hp a (List.mem_cons_self a l)
    have ih := optMapM_map_val (g := g) (h := h) (f := f) (l := l)
      (fun x hx => hp x (List.mem_cons_of_mem a hx))
    simp only [optMapM, ha, ih]
    cases g a <;> cases optMapM g l <;> simp

/-- Python list.index, returning the first index of x (None for ValueError). -/
def pyIndex (l : List CName) (x : CName) : Option Nat :=
  match l with
  | [] => none
  | a :: l' => if a = x then some 0 else (pyIndex l' x).map (fun j => j + 1)

theorem pyIndex_get {x : CName} :
    ∀ (l : List CName), x ∈ l → ∃ j, pyIndex l x = some j ∧ l[j]? = some x
  | a :: l', hm => by
    by_cases hax : a = x
    · exact ⟨0, by simp [pyIndex, hax]⟩
    · have hx : x ∈ l' := by
        cases hm with
        | head => exact absurd rfl hax
        | tail _ h => exact h
      obtain ⟨j, hj, hg⟩ := pyIndex_get l' hx
      exact ⟨j + 1, by simp [pyIndex, hax, hj], by simpa using hg⟩

theorem optMapM_pyIndex_pointwise {full sub : List CName} {g : CName → Nat}
    (h : ∀ x ∈ sub, pyIndex full x = some (g x)) :
    optMapM (pyIndex full) sub = some (sub.map g) :=
  optMapM_eq_map h

theorem pyIndex_self_nodup :
    ∀ {l : List CName}, l.Nodup → optMapM (pyIndex l) l = some (List.range l.length)
  | [], _ => rfl
  | a :: l', hnd => by
    have hal : a ∉ l' := (List.nodup_cons.mp hnd).1
    have hnd' : l'.Nodup := (List.nodup_cons.mp hnd).2
    have ih := pyIndex_self_nodup hnd'
    have htail : optMapM (pyIndex (a :: l')) l' =
        some ((List.range l'.length).map (fun j => j + 1)) := by
      have hstep : ∀ x ∈ l', pyIndex (a :: l') x =
          ((pyIndex l' x).map (fun j => j + 1)) := by
        intro x hx
        have hax : a ≠ x := fun h => hal (h ▸ hx)
        simp [pyIndex, hax]
      rw [optMapM_map_val hstep, ih]
      rfl
    have hhead : pyIndex (a :: l') a = some 0 := by simp [pyIndex]
    rw [optMapM_cons, hhead, htail]
    simp [List.range_succ_eq_map, Nat.succ_eq_add_one]

/-- A pandas DataFrame, modelled column-wise: ordered (name, values) pairs. -/
abbrev Table := List (CName × List Rat)

/-- dataset.columns.tolist() -/
def colNames (t : Table) : List CName := t.map (fun p => p.1)

/-- dataset[n] for a single column n; none models the KeyError. -/
def getCol (t : Table) (n : CName) : Option (List Rat) :=
  (t.find? (fun p => decide (p.1 = n))).map (fun p => p.2)

/-- dataset[n] = v: pandas replaces the column in place when the name
exists, otherwise appends it as the last column. -/
def setCol (t : Table) (n : CName) (v : List Rat) : Table :=
  if n ∈ colNames t then t.map (fun p => if p.1 = n then (n, v) else p)
  else t ++ [(n, v)]

/-- dataset.drop(columns=n). -/
def dropCol (t : Table) (n : CName) : Table := t.filter (fun p => decide (p.1 ≠ n))

/-- dataset.loc[:, ns]: reprojection onto the named columns, in the given
order; none models the KeyError on a missing column. -/
def projectCols (t : Table) (ns : List CName) : Option Table :=
  optMapM (fun n => (getCol t n).map (fun v => (n, v))) ns

theorem colNames_cons (p : CName × List Rat) (t : Table) :
    colNames (p :: t) = p.1 :: colNames t := rfl

theorem getCol_cons (p : CName × List Rat) (t : Table) (n : CName) :
    getCol (p :: t) n = if p.1 = n then some p.2 else getCol t n := by
  by_cases hp : p.1 = n <;> simp [getCol, List.find?, hp]

theorem getCol_isSome_of_mem {t : Table} {n : CName} (h : n ∈ colNames t) :
    ∃ v, getCol t n = some v := by
  induction t with
  | nil => cases h
  | cons p t ih =>
    rw [colNames_cons] at h
    rw [getCol_cons]
    by_cases hp : p.1 = n
    · exact ⟨p.2, by rw [if_pos hp]⟩
    · have hmem : n ∈ colNames t := by
        rcases List.mem_cons.mp h with h1 | h2
        · exact absurd h1.symm hp
        · exact h2
      obtain ⟨v, hv⟩ := ih hmem
      exact ⟨v, by rw [if_neg hp]; exact hv⟩

theorem getCol_map_fun (ns : List CName) (g : CName → List Rat) {n : CName}
    (h : n ∈ ns) : getCol (ns.map (fun m => (m, g m))) n = some (g n) := by
  induction ns with
  | nil => cases h
  | cons a ns ih =>
    rw [List.map_cons, getCol_cons]
    by_cases ha : a = n
    · subst ha; simp
    · have hmem : n ∈ ns := by
        rcases List.mem_cons.mp h with h1 | h2
        · exact absurd h1.symm ha
        · exact h2
      rw [if_neg (by simpa using ha)]
      exact ih hmem

theorem getCol_of_find {t : Table} {n : CName} {v : List Rat}
    (h : getCol t n = some v) : n ∈ colNames t := by
  induction t with
  | nil => simp [getCol, List.find?] at h
  | cons p t ih =>
    rw [getCol_cons] at h
    rw [colNames_cons]
    by_cases hp : p.1 = n
    · exact hp ▸ List.mem_cons_self _ _
    · rw [if_neg hp] at h
      exact List.mem_cons_of_mem _ (ih h)

/-- The outcome of the channel-selection part of load_data, before the
final index/label extraction. -/
structure StepOut where
  tgt : List CName
  dataset : Table
  dataCols : List CName
  anomCols : List CName
deriving DecidableEq

/-- The resolved output of load_data: the effective channel selection,
the recomputed indices, the per-channel label column names, the label
matrix (column-wise) and the selected data matrix (column-wise, in
target_channel_indices order). -/
structure Resolved where
  targetChannels : List CName
  targetChannelIndices : List Nat
  labelNames : List CName
  labelCols : List (List Rat)
  dataCols : List (List Rat)
deriving DecidableEq

/-- The all-channels branch of load_data (target_channels None or sharing
no name with the data columns): select every data column and synthesize
per-channel label column names by the is_anomaly_<channel> convention. -/
def allChanStep (t : Table) (dataColumns : List CName) : StepOut :=
  { tgt := dataColumns
    dataset := t
    dataCols := dataColumns
    anomCols := (dataColumns.filter (fun x => decide (x ∈ dataColumns))).map
      (fun c => anomU ++ c) }

/-- Lines 41-59 of std/algorithm.py (= lines 58-76 of
subsequence_if/algorithm.py): branch on the requested channels, restrict
the dataset, broadcast a single global is_anomaly column when present,
and reproject the dataset columns. -/
def resolveStep (t : Table) (tc : Option (List CName))
    (dataColumns anomalyColumns : List CName) : Option StepOut :=
  match tc with
  | none => some (allChanStep t dataColumns)
  | some tgt =>
    if ∀ x ∈ tgt, x ∉ dataColumns then some (allChanStep t dataColumns)
    else
      let tgt2 := tgt.filter (fun x => decide (x ∈ dataColumns))
      let allUsed := dataColumns.filter (fun x => decide (x ∈ tgt2))
      let anoms := allUsed.map (fun c => anomU ++ c)
      let d1 :=
        if anomalyColumns = [anomP] then
          dropCol (anoms.foldl (fun d c => setCol d c ((getCol d anomP).getD [])) t) anomP
        else t
      match projectCols d1 (allUsed ++ anoms) with
      | none => none
      | some d2 => some ⟨tgt2, d2, (colNames d2).take allUsed.length, anoms⟩

/-- Lines 61-65 of std/algorithm.py (= lines 78-82 of
subsequence_if/algorithm.py): recompute channel indices via list.index,
extract the label matrix by column lookup, and select the data-matrix
columns at the recomputed indices. -/
def mkResolved (d2 : Table) (tgt2 dcols2 anoms : List CName) : Option Resolved :=
  match optMapM (pyIndex dcols2) tgt2 with
  | none => none
  | some idxs =>
    match optMapM (fun n => getCol d2 n) anoms with
    | none => none
    | some lcols =>
      match optMapM (fun i => d2[i]?.map (fun p => p.2)) idxs with
      | none => none
      | some dcs => some ⟨tgt2, idxs, anoms, lcols, dcs⟩

/-- The anomaly columns of a header: every column whose name starts with
the reserved prefix (line 34 / line 51). -/
def anomColsOf (columns : List CName) : List CName :=
  columns.filter (fun x => startsWithN anomP x)

/-- The data columns of a header: columns[:-len(anomaly_columns)]
(line 35 / line 52); the Python negative slice yields [] when there is
no anomaly column. -/
def dataColsOf (columns : List CName) : List CName :=
  if (anomColsOf columns).length = 0 then []
  else columns.take (columns.length - (anomColsOf columns).length)

/-- The channel/label resolution of load_data, common to
std/algorithm.py (lines 33-65) and subsequence_if/algorithm.py
(lines 50-82); none models an uncaught KeyError/ValueError. -/
def loadDataResolve (t : Table) (tc : Option (List CName)) : Option Resolved :=
  (resolveStep t tc (dataColsOf (colNames t)) (anomColsOf (colNames t))).bind
    (fun q => mkResolved q.dataset q.tgt q.dataCols q.anomCols)

theorem anomColsOf_split {chanNames labNames : List CName}
    (hchan : ∀ c ∈ chanNames, startsWithN anomP c = false)
    (hlab : ∀ n ∈ labNames, startsWithN anomP n = true) :
    anomColsOf (chanNames ++ labNames) = labNames := by
  rw [anomColsOf, List.filter_append]
  rw [List.filter_eq_nil_iff.mpr (fun a ha => by simp [hchan a ha])]
  rw [List.filter_eq_self.mpr (fun a ha => by simp [hlab a ha])]
  simp

theorem dataColsOf_split {chanNames labNames : List CName}
    (hchan : ∀ c ∈ chanNames, startsWithN anomP c = false)
    (hlab : ∀ n ∈ labNames, startsWithN anomP n = true)
    (hlabne : labNames ≠ []) :
    dataColsOf (chanNames ++ labNames) = chanNames := by
  rw [dataColsOf, anomColsOf_split hchan hlab]
  have hlen : labNames.length ≠ 0 := by simpa using hlabne
  rw [if_neg hlen, List.length_append]
  rw [show chanNames.length + labNames.length - labNames.length = chanNames.length by omega]
  exact List.take_left chanNames labNames

theorem allChanStep_eq (t : Table) (dc : List CName) :
    allChanStep t dc = ⟨dc, t, dc, dc.map (fun c => anomU ++ c)⟩ := by
  have hf : dc.filter (fun x => decide (x ∈ dc)) = dc :=
    List.filter_eq_self.mpr (fun a ha => by simpa using ha)
  simp [allChanStep, hf]

theorem resolveStep_all {t : Table} {tc : Option (List CName)} {dc ac : List CName}
    (h : tc = none ∨ ∃ tgt, tc = some tgt ∧ ∀ x ∈ tgt, x ∉ dc) :
    resolveStep t tc dc ac = some (allChanStep t dc) := by
  rcases h with h | ⟨tgt, rfl, hall⟩
  · rw [h]; rfl
  · simp only [resolveStep]
    rw [if_pos hall]

/-- C1 (amended): for every input table whose header is channel columns
followed by label columns and which carries a per-channel label column
is_anomaly_<c> for every channel, and every configuration whose
target_channels is None or shares no name with the channel columns,
load_data selects every channel column in original source order, with
indices 0..C-1 and exactly one synthesized label column per selected
channel, in matching order.  (When the table carries only a single
global is_anomaly column this branch instead fails; see the
counterexample.) -/
theorem resolve_all_channels_per_channel_labels
    (t : Table) (chanNames labNames : List CName) (tc : Option (List CName))
    (hcols : colNames t = chanNames ++ labNames)
    (hchan : ∀ c ∈ chanNames, startsWithN anomP c = false)
    (hlab : ∀ n ∈ labNames, startsWithN anomP n = true)
    (hlabne : labNames ≠ [])
    (hnd : chanNames.Nodup)
    (hsyn : ∀ c ∈ chanNames, (getCol t (anomU ++ c)).isSome = true)
    (htgt : tc = none ∨ ∃ tgt, tc = some tgt ∧ ∀ x ∈ tgt, x ∉ chanNames) :
    loadDataResolve t tc = some
      { targetChannels := chanNames
        targetChannelIndices := List.range chanNames.length
        labelNames := chanNames.map (fun c => anomU ++ c)
        labelCols := chanNames.map (fun c => (getCol t (anomU ++ c)).getD [])
        dataCols := (t.take chanNames.length).map (fun p => p.2) } := by
  have hA : anomColsOf (colNames t) = labNames := by
    rw [hcols]; exact anomColsOf_split hchan hlab
  have hD : dataColsOf (colNames t) = chanNames := by
    rw [hcols]; exact dataColsOf_split hchan hlab hlabne
  have htlen : chanNames.length ≤ t.length := by
    have h1 : (colNames t).length = t.length := List.length_map t (fun p => p.1)
    have h2 := congrArg List.length hcols
    rw [h1, List.length_append] at h2
    omega
  have hlabels : ∀ c ∈ chanNames,
      getCol t (anomU ++ c) = some ((getCol t (anomU ++ c)).getD []) := by
    intro c hc
    obtain ⟨v, hv⟩ := Option.isSome_iff_exists.mp (hsyn c hc)
    rw [hv]
    rfl
  rw [loadDataResolve, hA, hD, resolveStep_all htgt, allChanStep_eq]
  rw [Option.some_bind]
  rw [mkResolved]
  rw [pyIndex_self_nodup hnd]
  rw [optMapM_map (fun n => getCol t n) (fun c => anomU ++ c) chanNames]
  rw [optMapM_eq_map hlabels]
  dsimp only
  rw [optMapM_range_get (fun p => p.2) htlen]

/-- C1 witness: a 2-channel table with per-channel label columns,
target_channels None, resolves to all channels in source order. -/
theorem resolve_all_channels_witness :
    loadDataResolve
      [(strN "a", [1, 2]), (strN "b", [3, 4]),
       (strN "is_anomaly_a", [0, 1]), (strN "is_anomaly_b", [1, 0])] none = some
      { targetChannels := [strN "a", strN "b"]
        targetChannelIndices := List.range 2
        labelNames := [strN "a", strN "b"].map (fun c => anomU ++ c)
        labelCols := [strN "a", strN "b"].map (fun c =>
          (getCol [(strN "a", [1, 2]), (strN "b", [3, 4]),
            (strN "is_anomaly_a", [0, 1]), (strN "is_anomaly_b", [1, 0])] (anomU ++ c)).getD [])
        dataCols := (([(strN "a", [1, 2]), (strN "b", [3, 4]),
            (strN "is_anomaly_a", [0, 1]), (strN "is_anomaly_b", [1, 0])] : Table).take 2).map
          (fun p => p.2) } :=
  resolve_all_channels_per_channel_labels _ [strN "a", strN "b"]
    [strN "is_anomaly_a", strN "is_anomaly_b"] none (by decide) (by decide) (by decide)
    (by decide) (by decide) (by decide) (Or.inl rfl)

/-- C1 counterexample: a table whose only label column is the single
global is_anomaly column, with target_channels None: resolution fails
(the synthesized per-channel label column is_anomaly_a does not exist)
instead of producing one label column per selected channel. -/
theorem resolve_global_label_counterexample :
    loadDataResolve [(strN "a", [1, 2]), (strN "is_anomaly", [0, 1])] none = none := by
  decide

/-- C9 (amended): when zero channels remain after resolution (the table
has no data columns), load_data does not raise any error: it succeeds
with an empty selection, for every requested-channel configuration. -/
theorem resolve_zero_channels_no_error
    (t : Table) (tc : Option (List CName))
    (hne : colNames t ≠ [])
    (hall : ∀ n ∈ colNames t, startsWithN anomP n = true) :
    loadDataResolve t tc = some ⟨[], [], [], [], []⟩ := by
  have hA : anomColsOf (colNames t) = colNames t :=
    List.filter_eq_self.mpr (fun a ha => by simp [hall a ha])
  have hD : dataColsOf (colNames t) = [] := by
    rw [dataColsOf, hA]
    have hlen : (colNames t).length ≠ 0 := by simpa using hne
    rw [if_neg hlen]
    simp
  have htgt : tc = none ∨ ∃ tgt, tc = some tgt ∧ ∀ x ∈ tgt, x ∉ ([] : List CName) := by
    cases tc with
    | none => exact Or.inl rfl
    | some tgt => exact Or.inr ⟨tgt, rfl, by simp⟩
  rw [loadDataResolve, hD, resolveStep_all htgt, allChanStep_eq]
  rfl

/-- C9 counterexample: a table whose columns are all label columns
(zero channels remain selected); resolution succeeds instead of
failing with a configuration error. -/
theorem resolve_zero_channels_counterexample :
    (loadDataResolve [(strN "is_anomaly", [0, 1])] none).isSome = true := by
  decide

/-- C9 witness: the amended theorem applied to the concrete one-column table. -/
theorem resolve_zero_channels_witness :
    loadDataResolve [(strN "is_anomaly", [0, 1])] none = some ⟨[], [], [], [], []⟩ :=
  resolve_zero_channels_no_error _ none (by decide) (by decide)

theorem colNames_map_fun (ns : List CName) (g : CName → List Rat) :
    colNames (ns.map (fun n => (n, g n))) = ns := by
  simp [colNames, List.map_map, Function.comp_def]

/-- C2 (amended): when the requested channels share at least one name
with the channel columns, load_data restricts the selection to the
intersection in REQUESTED order (target_channels), while the label
columns keep the ORIGINAL source column order; the data matrix columns
follow the requested order and the label matrix columns the source
order, so the i-th data column and the i-th label column refer to the
same channel exactly when the filtered requested order coincides with
the source order (e.g. when the requested names are listed in source
order). -/
theorem resolve_intersection_order
    (t : Table) (chanNames labNames : List CName) (tgt : List CName)
    (hcols : colNames t = chanNames ++ labNames)
    (hchan : ∀ c ∈ chanNames, startsWithN anomP c = false)
    (hlab : ∀ n ∈ labNames, startsWithN anomP n = true)
    (hlabne : labNames ≠ [])
    (hsyn : ∀ c ∈ chanNames, (getCol t (anomU ++ c)).isSome = true)
    (hne : ∃ x ∈ tgt, x ∈ chanNames) :
    loadDataResolve t (some tgt) = some
      { targetChannels := tgt.filter (fun x => decide (x ∈ chanNames))
        targetChannelIndices := (tgt.filter (fun x => decide (x ∈ chanNames))).map
          (fun x => (pyIndex (chanNames.filter (fun c => decide
            (c ∈ tgt.filter (fun y => decide (y ∈ chanNames))))) x).getD 0)
        labelNames := (chanNames.filter (fun c => decide
          (c ∈ tgt.filter (fun y => decide (y ∈ chanNames))))).map (fun c => anomU ++ c)
        labelCols := ((chanNames.filter (fun c => decide
          (c ∈ tgt.filter (fun y => decide (y ∈ chanNames))))).map (fun c => anomU ++ c)).map
          (fun n => (getCol t n).getD [])
        dataCols := (tgt.filter (fun x => decide (x ∈ chanNames))).map
          (fun c => (getCol t c).getD []) } ∧
    (tgt.filter (fun x => decide (x ∈ chanNames)) =
        chanNames.filter (fun c => decide (c ∈ tgt.filter (fun y => decide (y ∈ chanNames)))) →
      ((chanNames.filter (fun c => decide
          (c ∈ tgt.filter (fun y => decide (y ∈ chanNames))))).map (fun c => anomU ++ c)) =
        (tgt.filter (fun x => decide (x ∈ chanNames))).map (fun c => anomU ++ c)) := by
  have hA : anomColsOf (colNames t) = labNames := by
    rw [hcols]; exact anomColsOf_split hchan hlab
  have hD : dataColsOf (colNames t) = chanNames := by
    rw [hcols]; exact dataColsOf_split hchan hlab hlabne
  set tgt2 := tgt.filter (fun x => decide (x ∈ chanNames)) with htgt2
  set allUsed := chanNames.filter (fun c => decide (c ∈ tgt2)) with hallUsed
  set g : CName → List Rat := fun n => (getCol t n).getD [] with hg
  have hcond : ¬ ∀ x ∈ tgt, x ∉ chanNames := by
    obtain ⟨x, hx1, hx2⟩ := hne
    exact fun h => h x hx1 hx2
  -- membership facts
  have hmem_tgt2 : ∀ x ∈ tgt2, x ∈ chanNames ∧ x ∈ tgt := by
    intro x hx
    rw [htgt2, List.mem_filter] at hx
    exact ⟨by simpa using hx.2, hx.1⟩
  have hmem_used : ∀ c ∈ allUsed, c ∈ chanNames := by
    intro c hc
    rw [hallUsed, List.mem_filter] at hc
    exact hc.1
  have htgt2_sub_used : ∀ x ∈ tgt2, x ∈ allUsed := by
    intro x hx
    rw [hallUsed, List.mem_filter]
    exact ⟨(hmem_tgt2 x hx).1, by simpa using hx⟩
  -- the global-label test fails
  have hglob : labNames ≠ [anomP] := by
    intro hglo
    obtain ⟨c₀, _, hc₀⟩ := hne
    obtain ⟨v, hv⟩ := Option.isSome_iff_exists.mp (hsyn c₀ hc₀)
    have hmem := getCol_of_find hv
    rw [hcols] at hmem
    rcases List.mem_append.mp hmem with hl | hr
    · have := hchan _ hl
      rw [startsWithN_anomU] at this
      exact Bool.true_eq_false.mp this
    · rw [hglo] at hr
      exact anomU_append_ne_anomP c₀ (by simpa using hr)
  -- the dataset projection succeeds
  have hproj : projectCols t (allUsed ++ allUsed.map (fun c => anomU ++ c)) =
      some ((allUsed ++ allUsed.map (fun c => anomU ++ c)).map (fun n => (n, g n))) := by
    apply optMapM_eq_map
    intro n hn
    rcases List.mem_append.mp hn with hl | hr
    · have hmem : n ∈ colNames t := by
        rw [hcols]
        exact List.mem_append_left _ (hmem_used n hl)
      obtain ⟨v, hv⟩ := getCol_isSome_of_mem hmem
      rw [hv, hg]
      simp [hv]
    · obtain ⟨c, hc, rfl⟩ := List.mem_map.mp hr
      obtain ⟨v, hv⟩ := Option.isSome_iff_exists.mp (hsyn c (hmem_used c hc))
      rw [hv, hg]
      simp [hv]
  -- indices
  have hidx : optMapM (pyIndex allUsed) tgt2 =
      some (tgt2.map (fun x => (pyIndex allUsed x).getD 0)) := by
    apply optMapM_eq_map
    intro x hx
    obtain ⟨j, hj, _⟩ := pyIndex_get _ (htgt2_sub_used x hx)
    rw [hj]
    rfl
  -- label columns from the projected dataset
  have hlcols : optMapM (fun n =>
        getCol ((allUsed ++ allUsed.map (fun c => anomU ++ c)).map (fun n => (n, g n))) n)
      (allUsed.map (fun c => anomU ++ c)) =
      some ((allUsed.map (fun c => anomU ++ c)).map g) := by
    apply optMapM_eq_map
    intro n hn
    exact getCol_map_fun _ g (List.mem_append_right _ hn)
  -- data columns from the projected dataset
  have hdcols : optMapM (fun i =>
        ((allUsed ++ allUsed.map (fun c => anomU ++ c)).map (fun n => (n, g n)))[i]?.map
          (fun p => p.2))
      (tgt2.map (fun x => (pyIndex allUsed x).getD 0)) = some (tgt2.map g) := by
    rw [optMapM_map]
    apply optMapM_eq_map
    intro x hx
    obtain ⟨j, hj, hget⟩ := pyIndex_get _ (htgt2_sub_used x hx)
    have hjlt : j < allUsed.length := (List.getElem?_eq_some_iff.mp hget).1
    rw [hj]
    simp only [Option.getD_some, List.getElem?_map]
    rw [List.getElem?_append_left hjlt, hget]
    rfl
  -- assemble
  refine ⟨?_, ?_⟩
  · rw [loadDataResolve, hA, hD]
    simp only [resolveStep]
    rw [if_neg hcond, if_neg hglob, ← htgt2, ← hallUsed, hproj]
    dsimp only
    rw [Option.some_bind]
    dsimp only
    rw [colNames_map_fun, List.take_left]
    rw [mkResolved, hidx, hlcols]
    dsimp only
    rw [hdcols]
  · intro heq
    rw [← heq]

/-- C2 witness: requesting the single channel "b" from a 2-channel table. -/
theorem resolve_intersection_order_witness :
    loadDataResolve
      [(strN "a", [1, 2]), (strN "b", [3, 4]),
       (strN "is_anomaly_a", [0, 1]), (strN "is_anomaly_b", [1, 0])] (some [strN "b"]) = some
      { targetChannels := [strN "b"]
        targetChannelIndices := [0]
        labelNames := [strN "is_anomaly_b"]
        labelCols := [[1, 0]]
        dataCols := [[3, 4]] } :=
  ((resolve_intersection_order
      [(strN "a", [1, 2]), (strN "b", [3, 4]),
       (strN "is_anomaly_a", [0, 1]), (strN "is_anomaly_b", [1, 0])]
      [strN "a", strN "b"] [strN "is_anomaly_a", strN "is_anomaly_b"]
      [strN "b"] (by decide) (by decide) (by decide) (by decide) (by decide)
      ⟨strN "b", by decide, by decide⟩).1).trans (by decide)

/-- C2 counterexample: requesting the channels in the order [b, a] of a
table whose source order is [a, b]: the data matrix follows the
requested order while the label matrix keeps the source order, so the
0-th data column is channel b but the 0-th label column is channel a's
label, and the selection does not preserve the original column order. -/
theorem resolve_requested_order_counterexample :
    loadDataResolve
      [(strN "a", [1, 2]), (strN "b", [3, 4]),
       (strN "is_anomaly_a", [0, 1]), (strN "is_anomaly_b", [1, 0])]
      (some [strN "b", strN "a"]) = some
      { targetChannels := [strN "b", strN "a"]
        targetChannelIndices := [1, 0]
        labelNames := [strN "is_anomaly_a", strN "is_anomaly_b"]
        labelCols := [[0, 1], [1, 0]]
        dataCols := [[3, 4], [1, 2]] } ∧
    [strN "is_anomaly_a", strN "is_anomaly_b"] ≠
      [strN "b", strN "a"].map (fun c => anomU ++ c) ∧
    [strN "b", strN "a"] ≠ [strN "a", strN "b"] := by
  decide

/-- Column i of a row-major numeric matrix (dataset[:, i]). -/
def colOf (m : List (List Rat)) (i : Nat) : List Rat := m.map (fun r => r.getD i 0)

/-- dataset.shape[-1] of a row-major matrix. -/
def numCols (m : List (List Rat)) : Nat := (m.headD []).length

/-- Boolean-mask selection dataset[:, i][labels[:, i] == 0]: keep the
data entries whose label in the same row is 0. -/
def selectRows (xs labs : List Rat) : List Rat :=
  ((xs.zip labs).filter (fun p => decide (p.2 = 0))).map (fun p => p.1)

/-- np.mean; none models the NaN produced on an empty selection. -/
def npMean (xs : List Rat) : Option Rat :=
  if xs.length = 0 then none else some (xs.sum / (xs.length : Rat))

/-- The population variance (the square of np.std, ddof = 0); none
models the NaN produced on an empty selection. -/
def npVar (xs : List Rat) : Option Rat :=
  (npMean xs).map (fun m => ((xs.map (fun x => (x - m) ^ 2)).sum) / (xs.length : Rat))

/-- np.std: the square root of the population variance; none models NaN. -/
noncomputable def npStd (xs : List Rat) : Option Real :=
  (npVar xs).map (fun v => Real.sqrt (v : Real))

/-- One entry of np.where(train_stds == 0, 1, train_stds); a NaN
(none) compares unequal to 0 and is left unchanged. -/
noncomputable def stdWhere (s : Option Real) : Option Real :=
  s.map (fun r => if r = 0 then 1 else r)

/-- Line 69 of std/algorithm.py: per-channel means of the rows whose
label in the same column position is 0. -/
def trainMeans (data labels : List (List Rat)) : List (Option Rat) :=
  (List.range (numCols data)).map (fun i =>
    npMean (selectRows (colOf data i) (colOf labels i)))

/-- Lines 72-74 of std/algorithm.py: per-channel stds of the rows whose
label in the same column position is 0, then np.where(stds == 0, 1, stds). -/
noncomputable def trainStds (data labels : List (List Rat)) : List (Option Real) :=
  (List.range (numCols data)).map (fun i =>
    stdWhere (npStd (selectRows (colOf data i) (colOf labels i))))

theorem getD_map_range {β : Type _} (f : Nat → β) {i n : Nat} (h : i < n) (d : β) :
    ((List.range n).map f).getD i d = f i := by
  rw [List.getD_eq_getElem?_getD, List.getElem?_map, List.getElem?_range h]
  rfl

theorem getD_map_range_le {β : Type _} (f : Nat → β) {i n : Nat} (h : n ≤ i) (d : β) :
    ((List.range n).map f).getD i d = d := by
  rw [List.getD_eq_getElem?_getD, List.getElem?_eq_none (by simpa using h)]
  rfl

theorem sum_of_all_eq {k : Rat} :
    ∀ (xs : List Rat), (∀ x ∈ xs, x = k) → xs.sum = (xs.length : Rat) * k
  | [], _ => by simp
  | a :: l, h => by
    have ha := h a (List.mem_cons_self a l)
    have hl := sum_of_all_eq l (fun x hx => h x (List.mem_cons_of_mem a hx))
    simp [ha, hl]
    ring

theorem npMean_const {xs : List Rat} {k : Rat} (hne : xs ≠ []) (hall : ∀ x ∈ xs, x = k) :
    npMean xs = some k := by
  have hlen : xs.length ≠ 0 := by simpa using hne
  have hlenQ : (xs.length : Rat) ≠ 0 := by exact_mod_cast hlen
  rw [npMean, if_neg hlen, sum_of_all_eq xs hall]
  rw [mul_comm, mul_div_assoc, div_self hlenQ, mul_one]

theorem npVar_const {xs : List Rat} {k : Rat} (hne : xs ≠ []) (hall : ∀ x ∈ xs, x = k) :
    npVar xs = some 0 := by
  rw [npVar, npMean_const hne hall, Option.map_some']
  have hz : (xs.map (fun x => (x - k) ^ 2)).sum = 0 := by
    apply List.sum_eq_zero
    intro y hy
    obtain ⟨x, hx, rfl⟩ := List.mem_map.mp hy
    rw [hall x hx]
    ring
  rw [hz, zero_div]

theorem selectRows_all_zero {xs labs : List Rat} (hlen : xs.length ≤ labs.length)
    (h0 : ∀ y ∈ labs, y = 0) : selectRows xs labs = xs := by
  have hfil : (xs.zip labs).filter (fun p => decide (p.2 = 0)) = xs.zip labs :=
    List.filter_eq_self.mpr (fun p hp => by simp [h0 _ (List.of_mem_zip hp).2])
  rw [selectRows, hfil]
  exact List.map_fst_zip xs labs hlen

theorem selectRows_all_nonzero {xs labs : List Rat} (hnz : ∀ y ∈ labs, y ≠ 0) :
    selectRows xs labs = [] := by
  rw [selectRows,
    List.filter_eq_nil_iff.mpr (fun p hp => by simp [hnz _ (List.of_mem_zip hp).2])]
  rfl

theorem selectRows_append_anom {xs labs : List Rat} {a b : Rat}
    (hlen : xs.length = labs.length) (hb : b ≠ 0) :
    selectRows (xs ++ [a]) (labs ++ [b]) = selectRows xs labs := by
  rw [selectRows, selectRows, List.zip_append hlen, List.filter_append]
  have hsing : (([a].zip [b]).filter (fun p => decide (p.2 = 0))) = [] := by simp [hb]
  rw [hsing, List.append_nil]

theorem colOf_append_single (m : List (List Rat)) (r : List Rat) (i : Nat) :
    colOf (m ++ [r]) i = colOf m i ++ [r.getD i 0] := by
  simp [colOf]

theorem colOf_length (m : List (List Rat)) (i : Nat) : (colOf m i).length = m.length := by
  simp [colOf]

theorem numCols_append_single {m : List (List Rat)} (r : List Rat) (hne : m ≠ []) :
    numCols (m ++ [r]) = numCols m := by
  cases m with
  | nil => exact absurd rfl hne
  | cons a l => simp [numCols]

/-- C3: std train computes, for each selected channel i, mean and std of
exactly the rows whose label in column i is 0 (appending a row whose
label is nonzero leaves channel i's artifacts unchanged), replaces a
zero std by 1, and a channel of constant value k with all labels 0
yields mean = k and std = 1; no persisted std is ever 0. -/
theorem std_train_baseline
    (data labels : List (List Rat)) (i : Nat) (k : Rat)
    (hi : i < numCols data)
    (hne : data ≠ [])
    (hlen : labels.length = data.length)
    (hconst : ∀ r ∈ data, r.getD i 0 = k)
    (hlab0 : ∀ r ∈ labels, r.getD i 0 = 0) :
    (trainMeans data labels).getD i none = some k ∧
    (trainStds data labels).getD i none = some 1 ∧
    (∀ d l : List (List Rat), ∀ j : Nat, (trainStds d l).getD j none ≠ some 0) ∧
    (∀ row lab : List Rat, lab.getD i 0 ≠ 0 →
      (trainMeans (data ++ [row]) (labels ++ [lab])).getD i none =
        (trainMeans data labels).getD i none ∧
      (trainStds (data ++ [row]) (labels ++ [lab])).getD i none =
        (trainStds data labels).getD i none) := by
  have hxs_ne : colOf data i ≠ [] := by
    intro h
    have := congrArg List.length h
    rw [colOf_length] at this
    simp at this
    exact hne this
  have hlens : (colOf data i).length ≤ (colOf labels i).length := by
    rw [colOf_length, colOf_length, hlen]
  have hall : ∀ x ∈ colOf data i, x = k := by
    intro x hx
    obtain ⟨r, hr, rfl⟩ := List.mem_map.mp hx
    exact hconst r hr
  have h0 : ∀ y ∈ colOf labels i, y = 0 := by
    intro y hy
    obtain ⟨r, hr, rfl⟩ := List.mem_map.mp hy
    exact hlab0 r hr
  have hsel : selectRows (colOf data i) (colOf labels i) = colOf data i :=
    selectRows_all_zero hlens h0
  have hvar : npVar (selectRows (colOf data i) (colOf labels i)) = some 0 := by
    rw [hsel]
    exact npVar_const hxs_ne hall
  refine ⟨?_, ?_, ?_, ?_⟩
  · simp only [trainMeans]
    rw [getD_map_range _ hi, hsel]
    exact npMean_const hxs_ne hall
  · simp only [trainStds]
    rw [getD_map_range _ hi]
    simp [npStd, stdWhere, hvar, Real.sqrt_zero]
  · intro d l j
    by_cases hj : j < numCols d
    · simp only [trainStds]
      rw [getD_map_range _ hj]
      cases hs : npStd (selectRows (colOf d j) (colOf l j)) with
      | none => simp [stdWhere]
      | some r =>
        simp only [stdWhere, Option.map_some']
        intro hcontra
        have hval := Option.some.inj hcontra
        by_cases hr : r = 0
        · rw [if_pos hr] at hval
          exact one_ne_zero hval
        · rw [if_neg hr] at hval
          exact hr hval
    · simp only [trainStds]
      rw [getD_map_range_le _ (le_of_not_lt hj)]
      simp
  · intro row lab hlabnz
    have hlen2 : (colOf data i).length = (colOf labels i).length := by
      rw [colOf_length, colOf_length, hlen]
    have hselapp : selectRows (colOf (data ++ [row]) i) (colOf (labels ++ [lab]) i) =
        selectRows (colOf data i) (colOf labels i) := by
      rw [colOf_append_single, colOf_append_single]
      exact selectRows_append_anom hlen2 hlabnz
    constructor
    · simp only [trainMeans]
      rw [numCols_append_single row hne, getD_map_range _ hi, getD_map_range _ hi, hselapp]
    · simp only [trainStds]
      rw [numCols_append_single row hne, getD_map_range _ hi, getD_map_range _ hi, hselapp]

/-- C3 witness: a single constant channel of value 5 over two rows with
all labels 0. -/
theorem std_train_baseline_witness :
    (trainMeans [[5], [5]] [[0], [0]]).getD 0 none = some 5 ∧
    (trainStds [[5], [5]] [[0], [0]]).getD 0 none = some 1 ∧
    (∀ d l : List (List Rat), ∀ j : Nat, (trainStds d l).getD j none ≠ some 0) ∧
    (∀ row lab : List Rat, lab.getD 0 0 ≠ 0 →
      (trainMeans ([[5], [5]] ++ [row]) ([[0], [0]] ++ [lab])).getD 0 none =
        (trainMeans [[5], [5]] [[0], [0]]).getD 0 none ∧
      (trainStds ([[5], [5]] ++ [row]) ([[0], [0]] ++ [lab])).getD 0 none =
        (trainStds [[5], [5]] [[0], [0]]).getD 0 none) :=
  std_train_baseline [[5], [5]] [[0], [0]] 0 5 (by decide) (by decide) (by decide)
    (by decide) (by decide)

/-- C10: for a channel whose label is nonzero in every row, std train
does not fail: the empty selection makes np.mean and np.std return NaN
(modelled none), the std-of-zero substitution does not apply to NaN,
and NaN is persisted for both artifacts; conversely a non-NaN persisted
mean requires some row of that channel to carry label 0. -/
theorem std_train_all_anomalous_nan
    (data labels : List (List Rat)) (i : Nat)
    (hi : i < numCols data)
    (hnz : ∀ r ∈ labels, r.getD i 0 ≠ 0) :
    (trainMeans data labels).getD i none = none ∧
    (trainStds data labels).getD i none = none ∧
    (∀ d l : List (List Rat), ∀ j : Nat,
      (trainMeans d l).getD j none ≠ none →
        ∃ p ∈ (colOf d j).zip (colOf l j), p.2 = 0) := by
  have hnz' : ∀ y ∈ colOf labels i, y ≠ 0 := by
    intro y hy
    obtain ⟨r, hr, rfl⟩ := List.mem_map.mp hy
    exact hnz r hr
  have hsel : selectRows (colOf data i) (colOf labels i) = [] :=
    selectRows_all_nonzero hnz'
  refine ⟨?_, ?_, ?_⟩
  · simp only [trainMeans]
    rw [getD_map_range _ hi, hsel]
    rfl
  · simp only [trainStds]
    rw [getD_map_range _ hi, hsel]
    rfl
  · intro d l j hne
    by_cases hj : j < numCols d
    · simp only [trainMeans] at hne
      rw [getD_map_range _ hj] at hne
      have hlen : (selectRows (colOf d j) (colOf l j)).length ≠ 0 := by
        intro h0
        rw [npMean, if_pos h0] at hne
        exact hne rfl
      have hfil : ((colOf d j).zip (colOf l j)).filter (fun p => decide (p.2 = 0)) ≠ [] := by
        intro h0
        rw [selectRows, h0] at hlen
        exact hlen rfl
      obtain ⟨p, hp⟩ := List.exists_mem_of_ne_nil _ hfil
      have hp2 := List.mem_filter.mp hp
      exact ⟨p, hp2.1, by simpa using hp2.2⟩
    · simp only [trainMeans] at hne
      rw [getD_map_range_le _ (le_of_not_lt hj)] at hne
      exact absurd rfl hne

/-- C10 witness: a single channel whose only row is labelled anomalous. -/
theorem std_train_all_anomalous_nan_witness :
    (trainMeans [[7]] [[1]]).getD 0 none = none ∧
    (trainStds [[7]] [[1]]).getD 0 none = none ∧
    (∀ d l : List (List Rat), ∀ j : Nat,
      (trainMeans d l).getD j none ≠ none →
        ∃ p ∈ (colOf d j).zip (colOf l j), p.2 = 0) :=
  std_train_all_anomalous_nan [[7]] [[1]] 0 (by decide) (by decide)

/-- The CustomParameters dataclass of std/algorithm.py with its defaults. -/
structure StdParams where
  tol : Rat := 3
  randomState : Int := 42

/-- The default std parameters (tol = 3.0, random_state = 42). -/
def stdDefaults : StdParams := {}

/-- One entry of lines 91-92 of std/algorithm.py:
(data > means + tol*stds) | (data < means - tol*stds), as uint8. -/
def scoreEntry (x m s tol : Rat) : Nat :=
  if x > m + tol * s ∨ x < m - tol * s then 1 else 0

/-- Lines 91-92 of std/algorithm.py: the per-(row, channel) binary score
matrix; the numpy broadcast of the per-channel means/stds vectors over
the rows is modelled index-wise. -/
def stdScores (data : List (List Rat)) (means stds : List Rat) (tol : Rat) :
    List (List Nat) :=
  data.map (fun row => (List.range means.length).map (fun c =>
    scoreEntry (row.getD c 0) (means.getD c 0) (stds.getD c 0) tol))

theorem getD_map_lt {α β : Type _} (f : α → β) {m : List α} {r : Nat}
    (h : r < m.length) (d : β) (d' : α) :
    (m.map f).getD r d = f (m.getD r d') := by
  rw [List.getD_eq_getElem?_getD, List.getElem?_map, List.getElem?_eq_getElem h,
    List.getD_eq_getElem?_getD, List.getElem?_eq_getElem h]
  rfl

/-- C4: std execute emits one binary flag per (row, channel): the flag
at (r, c) is 1 iff the value exceeds mean + tol*std or falls below
mean - tol*std, and 0 otherwise; with nonnegative tol*std (as for the
default tol 3.0 and train-persisted stds) a value exactly at either
threshold is not flagged; the configured default tolerance is 3.0. -/
theorem std_execute_scores
    (data : List (List Rat)) (means stds : List Rat) (tol : Rat) (r c : Nat)
    (hr : r < data.length) (hc : c < means.length) :
    (((stdScores data means stds tol).getD r []).getD c 2 =
      scoreEntry ((data.getD r []).getD c 0) (means.getD c 0) (stds.getD c 0) tol) ∧
    ((((stdScores data means stds tol).getD r []).getD c 2 = 1) ↔
      ((data.getD r []).getD c 0 > means.getD c 0 + tol * stds.getD c 0 ∨
       (data.getD r []).getD c 0 < means.getD c 0 - tol * stds.getD c 0)) ∧
    ((((stdScores data means stds tol).getD r []).getD c 2 = 0) ↔
      ¬((data.getD r []).getD c 0 > means.getD c 0 + tol * stds.getD c 0 ∨
        (data.getD r []).getD c 0 < means.getD c 0 - tol * stds.getD c 0)) ∧
    (0 ≤ tol → 0 ≤ stds.getD c 0 →
      ((data.getD r []).getD c 0 = means.getD c 0 + tol * stds.getD c 0 ∨
       (data.getD r []).getD c 0 = means.getD c 0 - tol * stds.getD c 0) →
      ((stdScores data means stds tol).getD r []).getD c 2 = 0) ∧
    stdDefaults.tol = 3 := by
  have hrow : (stdScores data means stds tol).getD r [] =
      (List.range means.length).map (fun cc =>
        scoreEntry ((data.getD r []).getD cc 0) (means.getD cc 0) (stds.getD cc 0) tol) := by
    simp only [stdScores]
    exact getD_map_lt _ hr [] []
  have hentry : ((stdScores data means stds tol).getD r []).getD c 2 =
      scoreEntry ((data.getD r []).getD c 0) (means.getD c 0) (stds.getD c 0) tol := by
    rw [hrow, getD_map_range _ hc]
  set x := (data.getD r []).getD c 0
  set m := means.getD c 0
  set s := stds.getD c 0
  have hiff1 : (((stdScores data means stds tol).getD r []).getD c 2 = 1) ↔
      (x > m + tol * s ∨ x < m - tol * s) := by
    rw [hentry, scoreEntry]
    by_cases hcond : x > m + tol * s ∨ x < m - tol * s
    · simp [hcond]
    · simp [hcond]
  have hiff0 : (((stdScores data means stds tol).getD r []).getD c 2 = 0) ↔
      ¬(x > m + tol * s ∨ x < m - tol * s) := by
    rw [hentry, scoreEntry]
    by_cases hcond : x > m + tol * s ∨ x < m - tol * s
    · simp [hcond]
    · simp [hcond]
  refine ⟨hentry, hiff1, hiff0, ?_, rfl⟩
  intro htol hs hthr
  rw [hiff0]
  have hts : 0 ≤ tol * s := mul_nonneg htol hs
  rcases hthr with hx | hx
  · intro hcontra
    rcases hcontra with h1 | h1
    · rw [hx] at h1
      exact lt_irrefl _ h1
    · rw [hx] at h1
      linarith
  · intro hcontra
    rcases hcontra with h1 | h1
    · rw [hx] at h1
      linarith
    · rw [hx] at h1
      exact lt_irrefl _ h1

/-- C4 witness: one row, one channel, value 10, mean 5, std 1, tol 3:
the value exceeds 5 + 3 and is flagged. -/
theorem std_execute_scores_witness :
    (((stdScores [[10]] [5] [1] 3).getD 0 []).getD 0 2 =
      scoreEntry (([[10]] : List (List Rat)).getD 0 [] |>.getD 0 0)
        (([5] : List Rat).getD 0 0) (([1] : List Rat).getD 0 0) 3) ∧
    ((((stdScores [[10]] [5] [1] 3).getD 0 []).getD 0 2 = 1) ↔
      ((([[10]] : List (List Rat)).getD 0 [] |>.getD 0 0) >
          ([5] : List Rat).getD 0 0 + 3 * ([1] : List Rat).getD 0 0 ∨
       (([[10]] : List (List Rat)).getD 0 [] |>.getD 0 0) <
          ([5] : List Rat).getD 0 0 - 3 * ([1] : List Rat).getD 0 0)) ∧
    ((((stdScores [[10]] [5] [1] 3).getD 0 []).getD 0 2 = 0) ↔
      ¬((([[10]] : List (List Rat)).getD 0 [] |>.getD 0 0) >
          ([5] : List Rat).getD 0 0 + 3 * ([1] : List Rat).getD 0 0 ∨
        (([[10]] : List (List Rat)).getD 0 [] |>.getD 0 0) <
          ([5] : List Rat).getD 0 0 - 3 * ([1] : List Rat).getD 0 0)) ∧
    ((0 : Rat) ≤ 3 → (0 : Rat) ≤ ([1] : List Rat).getD 0 0 →
      ((([[10]] : List (List Rat)).getD 0 [] |>.getD 0 0) =
          ([5] : List Rat).getD 0 0 + 3 * ([1] : List Rat).getD 0 0 ∨
       (([[10]] : List (List Rat)).getD 0 [] |>.getD 0 0) =
          ([5] : List Rat).getD 0 0 - 3 * ([1] : List Rat).getD 0 0) →
      ((stdScores [[10]] [5] [1] 3).getD 0 []).getD 0 2 = 0) ∧
    stdDefaults.tol = 3 :=
  std_execute_scores [[10]] [5] [1] 3 0 0 (by decide) (by decide)

/-- sliding_window_view(data, window_shape=W, axis=0).reshape(-1, W*C)
(line 98 / line 123 of subsequence_if/algorithm.py): window i is the
(C, W) block of rows i..i+W-1 flattened channel-major; none models the
ValueError raised when W = 0 or W exceeds the row count. -/
def slidingWindowFlat (data : List (List Rat)) (w : Nat) : Option (List (List Rat)) :=
  if w = 0 ∨ data.length < w then none
  else some ((List.range (data.length - w + 1)).map (fun i =>
    ((List.range (numCols data)).map (fun c =>
      (List.range w).map (fun s => (data.getD (i + s) []).getD c 0))).flatten))

/-- np.pad(result, W // 2, constant_values=0) (line 132). -/
def padScores (preds : List Rat) (k : Nat) : List Rat :=
  List.replicate k 0 ++ preds ++ List.replicate k 0

/-- Lines 118-133 of subsequence_if/algorithm.py for an abstract
per-window predictor f (the unpickled ensemble's predict): window the
data identically to train, predict one value per window, and pad both
ends with W // 2 normal (0) values. -/
def subIfExecuteCore (data : List (List Rat)) (w : Nat) (f : List Rat → Rat) :
    Option (List Rat) :=
  (slidingWindowFlat data w).map (fun ws => padScores (ws.map f) (w / 2))

/-- C5: for every input series of T rows and every odd window size
W ≤ T, the windowed detector's execute emits exactly T scores: the
first and last W/2 entries are the padding value 0 and the middle
T - W + 1 entries are the per-window predictions in order. -/
theorem subif_execute_padding
    (data : List (List Rat)) (w : Nat) (f : List Rat → Rat)
    (hodd : w % 2 = 1) (hw : w ≤ data.length) :
    ∃ ws, slidingWindowFlat data w = some ws ∧
      ws.length = data.length - w + 1 ∧
      subIfExecuteCore data w f = some (padScores (ws.map f) (w / 2)) ∧
      (padScores (ws.map f) (w / 2)).length = data.length ∧
      (padScores (ws.map f) (w / 2)).take (w / 2) = List.replicate (w / 2) (0 : Rat) ∧
      (padScores (ws.map f) (w / 2)).drop (data.length - w / 2) =
        List.replicate (w / 2) (0 : Rat) ∧
      ((padScores (ws.map f) (w / 2)).drop (w / 2)).take (data.length - w + 1) =
        ws.map f := by
  have hcond : ¬(w = 0 ∨ data.length < w) := by omega
  refine ⟨_, by rw [slidingWindowFlat, if_neg hcond], by simp, ?_, ?_, ?_, ?_, ?_⟩
  · rw [subIfExecuteCore, slidingWindowFlat, if_neg hcond, Option.map_some']
  · have hmaplen : ((List.range (data.length - w + 1)).map (fun i =>
        ((List.range (numCols data)).map (fun c =>
          (List.range w).map (fun s => (data.getD (i + s) []).getD c 0))).flatten)).length =
        data.length - w + 1 := by simp
    simp only [padScores, List.length_append, List.length_replicate, List.length_map,
      List.length_range]
    omega
  · rw [padScores, List.append_assoc]
    exact List.take_left' (List.length_replicate _ _)
  · rw [padScores]
    apply List.drop_left'
    simp only [List.length_append, List.length_replicate, List.length_map, List.length_range]
    omega
  · rw [padScores, List.append_assoc]
    rw [List.drop_left' (List.length_replicate _ _)]
    apply List.take_left'
    simp only [List.length_map, List.length_range]

/-- C5 witness: a 3-row single-channel series, window size 3, summing
predictor. -/
theorem subif_execute_padding_witness :
    ∃ ws, slidingWindowFlat [[1], [2], [3]] 3 = some ws ∧
      ws.length = ([[1], [2], [3]] : List (List Rat)).length - 3 + 1 ∧
      subIfExecuteCore [[1], [2], [3]] 3 (fun l => l.sum) =
        some (padScores (ws.map (fun l => l.sum)) (3 / 2)) ∧
      (padScores (ws.map (fun l => l.sum)) (3 / 2)).length =
        ([[1], [2], [3]] : List (List Rat)).length ∧
      (padScores (ws.map (fun l => l.sum)) (3 / 2)).take (3 / 2) =
        List.replicate (3 / 2) (0 : Rat) ∧
      (padScores (ws.map (fun l => l.sum)) (3 / 2)).drop
          (([[1], [2], [3]] : List (List Rat)).length - 3 / 2) =
        List.replicate (3 / 2) (0 : Rat) ∧
      ((padScores (ws.map (fun l => l.sum)) (3 / 2)).drop (3 / 2)).take
          (([[1], [2], [3]] : List (List Rat)).length - 3 + 1) =
        ws.map (fun l => l.sum) :=
  subif_execute_padding [[1], [2], [3]] 3 (fun l => l.sum) (by decide) (by decide)

/-- labels.max(axis=1) on one row (line 83); none models the ValueError
of a numpy reduction over an empty axis. -/
def npRowMax : List Rat → Option Rat
  | [] => none
  | h :: t => some (t.foldl max h)

/-- np.nextafter(0, 1): the smallest positive float64 (the subnormal
2^-1074). -/
def ratNextafterZero : Rat := 1 / 2 ^ 1074

/-- Lines 83-87 of subsequence_if/algorithm.py: per-row maximum of the
label matrix, clamp positive flags to 1, contamination = flagged rows /
total rows, and substitute np.nextafter(0, 1) when the ratio is 0. -/
def subIfContamination (labelRows : List (List Rat)) : Option Rat :=
  match optMapM npRowMax labelRows with
  | none => none
  | some ms =>
    if labelRows.length = 0 then none
    else
      some (if (ms.map (fun m => if 0 < m then (1 : Rat) else m)).sum /
          (labelRows.length : Rat) = 0
        then ratNextafterZero
        else (ms.map (fun m => if 0 < m then (1 : Rat) else m)).sum /
          (labelRows.length : Rat))

theorem foldl_max_le_iff {b : Rat} :
    ∀ {l : List Rat} {a : Rat}, l.foldl max a ≤ b ↔ a ≤ b ∧ ∀ x ∈ l, x ≤ b
  | [], a => by simp
  | c :: l, a => by
    rw [List.foldl_cons, foldl_max_le_iff]
    simp only [max_le_iff, List.mem_cons]
    constructor
    · rintro ⟨⟨ha, hc⟩, hl⟩
      refine ⟨ha, ?_⟩
      rintro x (rfl | hx)
      · exact hc
      · exact hl x hx
    · rintro ⟨ha, hl⟩
      exact ⟨⟨ha, hl c (Or.inl rfl)⟩, fun x hx => hl x (Or.inr hx)⟩

theorem le_foldl_max (a : Rat) :
    ∀ (l : List Rat), a ≤ l.foldl max a
  | [] => le_refl a
  | c :: l => by
    rw [List.foldl_cons]
    exact le_trans (le_max_left a c) (le_foldl_max _ l)

theorem npRowMax_flag {row : List Rat} (hne : row ≠ []) (hnn : ∀ x ∈ row, 0 ≤ x) :
    (if 0 < (npRowMax row).getD 0 then (1 : Rat) else (npRowMax row).getD 0) =
      if row.any (fun x => decide (0 < x)) then (1 : Rat) else 0 := by
  cases row with
  | nil => exact absurd rfl hne
  | cons h t =>
    simp only [npRowMax, Option.getD_some]
    by_cases hpos : 0 < t.foldl max h
    · have hany : (h :: t).any (fun x => decide (0 < x)) = true := by
        by_contra hno
        rw [List.any_eq_true] at hno
        push_neg at hno
        have hle : t.foldl max h ≤ 0 := by
          rw [foldl_max_le_iff]
          refine ⟨?_, ?_⟩
          · exact not_lt.mp (by simpa using hno h (List.mem_cons_self h t))
          · intro x hx
            exact not_lt.mp (by simpa using hno x (List.mem_cons_of_mem h hx))
        exact absurd hpos (not_lt.mpr hle)
      rw [if_pos hpos, if_pos hany]
    · have hM0 : t.foldl max h = 0 := by
        have h1 : 0 ≤ h := hnn h (List.mem_cons_self h t)
        have h2 : h ≤ t.foldl max h := le_foldl_max h t
        have h3 : t.foldl max h ≤ 0 := not_lt.mp hpos
        linarith
      have hany : ¬(h :: t).any (fun x => decide (0 < x)) = true := by
        intro hany
        rw [List.any_eq_true] at hany
        obtain ⟨x, hx, hpx⟩ := hany
        have hxpos : 0 < x := by simpa using hpx
        have hxle : x ≤ t.foldl max h := by
          rcases List.mem_cons.mp hx with rfl | hxt
          · exact le_foldl_max x t
          · exact ((foldl_max_le_iff (b := t.foldl max h)).mp (le_refl _)).2 x hxt
        rw [hM0] at hxle
        linarith
      rw [if_neg hpos, if_neg hany, hM0]

theorem flags_sum_count :
    ∀ (rows : List (List Rat)), (∀ row ∈ rows, row ≠ []) →
      (∀ row ∈ rows, ∀ x ∈ row, 0 ≤ x) →
      ((rows.map (fun row => (npRowMax row).getD 0)).map
          (fun m => if 0 < m then (1 : Rat) else m)).sum =
        ((rows.countP (fun row => row.any (fun x => decide (0 < x)))) : Rat)
  | [], _, _ => by simp
  | row :: rows, hne, hnn => by
    have ih := flags_sum_count rows (fun r hr => hne r (List.mem_cons_of_mem _ hr))
      (fun r hr => hnn r (List.mem_cons_of_mem _ hr))
    have hflag := npRowMax_flag (hne row (List.mem_cons_self row rows))
      (hnn row (List.mem_cons_self row rows))
    simp only [List.map_cons, List.sum_cons, ih, List.countP_cons]
    rw [hflag]
    by_cases hany : row.any (fun x => decide (0 < x)) = true
    · rw [if_pos hany, if_pos hany]
      push_cast
      ring
    · rw [if_neg hany, if_neg hany]
      push_cast
      ring

/-- C6: the ensemble detector's train derives a per-row flag as the
clamped maximum of the row's labels, sets contamination to the flagged
rows / total rows ratio, substitutes np.nextafter(0, 1) = 2^-1074 when
that ratio is exactly 0, and the contamination passed to the fit is
always strictly positive. -/
theorem subif_contamination_positive
    (labelRows : List (List Rat))
    (hne : labelRows ≠ [])
    (hrows : ∀ row ∈ labelRows, row ≠ [])
    (hnonneg : ∀ row ∈ labelRows, ∀ x ∈ row, 0 ≤ x) :
    ∃ c, subIfContamination labelRows = some c ∧ 0 < c ∧
      c = (if labelRows.countP (fun row => row.any (fun x => decide (0 < x))) = 0
           then ratNextafterZero
           else (labelRows.countP (fun row => row.any (fun x => decide (0 < x))) : Rat) /
             (labelRows.length : Rat)) ∧
      ratNextafterZero = 1 / 2 ^ 1074 := by
  have hms : optMapM npRowMax labelRows =
      some (labelRows.map (fun row => (npRowMax row).getD 0)) := by
    apply optMapM_eq_map
    intro row hr
    have hne' := hrows row hr
    cases row with
    | nil => exact absurd rfl hne'
    | cons h t => rfl
  have hlen0 : labelRows.length ≠ 0 := by simpa using hne
  have hflags := flags_sum_count labelRows hrows hnonneg
  have hlenpos : (0 : Rat) < (labelRows.length : Rat) := by
    exact_mod_cast Nat.pos_of_ne_zero hlen0
  rw [subIfContamination, hms]
  dsimp only
  rw [if_neg hlen0, hflags]
  by_cases hcnt : labelRows.countP (fun row => row.any (fun x => decide (0 < x))) = 0
  · refine ⟨ratNextafterZero, ?_, ?_, ?_, rfl⟩
    · rw [hcnt]
      norm_num
    · rw [ratNextafterZero]
      positivity
    · rw [if_pos hcnt]
  · refine ⟨((labelRows.countP (fun row => row.any (fun x => decide (0 < x)))) : Rat) /
      (labelRows.length : Rat), ?_, ?_, ?_, rfl⟩
    · have hne0 : ((labelRows.countP (fun row => row.any (fun x => decide (0 < x)))) : Rat) /
          (labelRows.length : Rat) ≠ 0 := by
        apply div_ne_zero
        · exact_mod_cast hcnt
        · exact ne_of_gt hlenpos
      rw [if_neg hne0]
    · apply div_pos _ hlenpos
      exact_mod_cast Nat.pos_of_ne_zero hcnt
    · rw [if_neg hcnt]

/-- C6 witness: a 2-row all-normal label matrix: the contamination is
the substituted minimal positive value. -/
theorem subif_contamination_positive_witness :
    ∃ c, subIfContamination [[0], [0]] = some c ∧ 0 < c ∧
      c = (if ([[0], [0]] : List (List Rat)).countP
              (fun row => row.any (fun x => decide (0 < x))) = 0
           then ratNextafterZero
           else (([[0], [0]] : List (List Rat)).countP
              (fun row => row.any (fun x => decide (0 < x))) : Rat) /
             (([[0], [0]] : List (List Rat)).length : Rat)) ∧
      ratNextafterZero = 1 / 2 ^ 1074 :=
  subif_contamination_positive [[0], [0]] (by decide) (by decide) (by decide)

/-- The CustomParameters dataclass of subsequence_if/algorithm.py
(defaults of lines 16-27; the opaque fit parameters are carried but not
interpreted here). -/
structure SubIfParams where
  windowSize : Int := 100
  nTrees : Rat := 100
  maxSamples : Option Rat := none
  maxFeatures : Rat := 1
  bootstrap : Bool := false
  randomState : Int := 42
  targetChannels : Option (List CName) := none

/-- A parsed configuration: executionType plus the custom parameters. -/
structure SubIfConfig where
  executionType : CName
  params : SubIfParams

/-- Lines 31-38 of subsequence_if/algorithm.py:
AlgorithmArgs.from_sys_args, whose assert window_size % 2 == 1 is the
pre-flight configuration check (AssertionError, the spec's
ConfigurationError), run before any data is read. -/
def subIfFromSysArgs (cfg : SubIfConfig) : Except CName SubIfConfig :=
  if cfg.params.windowSize % 2 = 1 then Except.ok cfg
  else Except.error (strN "ConfigurationError: window_size must be odd")

/-- Row-major matrix from column-wise data (to_numpy on selected columns). -/
def matrixOfCols (cols : List (List Rat)) : List (List Rat) :=
  (List.range ((cols.headD []).length)).map (fun r => cols.map (fun col => col.getD r 0))

/-- The observable outcome of one subsequence_if run. -/
inductive SubIfOutcome where
  | trained (contamination : Rat)
  | scores (s : List Rat)
deriving DecidableEq

/-- train (lines 92-115): resolve channels and labels, derive the
contamination, window the data, fit (the fitted ensemble is opaque;
the contamination passed to it is the observable). -/
def subIfTrain (cfg : SubIfConfig) (t : Table) : Except CName SubIfOutcome :=
  match loadDataResolve t cfg.params.targetChannels with
  | none => Except.error (strN "KeyError")
  | some r =>
    match subIfContamination (matrixOfCols r.labelCols) with
    | none => Except.error (strN "ValueError")
    | some c =>
      match slidingWindowFlat (matrixOfCols r.dataCols) cfg.params.windowSize.toNat with
      | none => Except.error (strN "ValueError")
      | some _ => Except.ok (SubIfOutcome.trained c)

/-- execute (lines 118-133) with an abstract per-window predictor f. -/
def subIfExec (f : List Rat → Rat) (cfg : SubIfConfig) (t : Table) :
    Except CName SubIfOutcome :=
  match loadDataResolve t cfg.params.targetChannels with
  | none => Except.error (strN "KeyError")
  | some r =>
    match subIfExecuteCore (matrixOfCols r.dataCols) cfg.params.windowSize.toNat f with
    | none => Except.error (strN "ValueError")
    | some s => Except.ok (SubIfOutcome.scores s)

/-- The main dispatch (lines 136-149): parse the configuration (including the
odd-window assert) first, then dispatch on executionType. -/
def subIfMain (f : List Rat → Rat) (cfg : SubIfConfig) (t : Table) :
    Except CName SubIfOutcome :=
  match subIfFromSysArgs cfg with
  | Except.error e => Except.error e
  | Except.ok c =>
    if c.executionType = strN "train" then subIfTrain c t
    else if c.executionType = strN "execute" then subIfExec f c t
    else Except.error (strN "ValueError: unknown execution type")

/-- C7: with an even window size, the run fails with the configuration
error raised at parse time, before any data is touched: the outcome is
the same error for every input table and for every execution type
(train, execute or anything else). -/
theorem subif_even_window_fails
    (f : List Rat → Rat) (cfg : SubIfConfig)
    (heven : cfg.params.windowSize % 2 = 0) :
    (∀ t : Table, subIfMain f cfg t =
      Except.error (strN "ConfigurationError: window_size must be odd")) ∧
    (∀ t₁ t₂ : Table, subIfMain f cfg t₁ = subIfMain f cfg t₂) := by
  have hparse : subIfFromSysArgs cfg =
      Except.error (strN "ConfigurationError: window_size must be odd") := by
    rw [subIfFromSysArgs, if_neg]
    omega
  have hall : ∀ t : Table, subIfMain f cfg t =
      Except.error (strN "ConfigurationError: window_size must be odd") := by
    intro t
    rw [subIfMain, hparse]
  exact ⟨hall, fun t₁ t₂ => (hall t₁).trans (hall t₂).symm⟩

/-- C7 witness: window size 4, train mode, applied to two different
tables. -/
theorem subif_even_window_fails_witness :
    (∀ t : Table, subIfMain (fun _ => 0)
        ⟨strN "train", { windowSize := 4 }⟩ t =
      Except.error (strN "ConfigurationError: window_size must be odd")) ∧
    (∀ t₁ t₂ : Table, subIfMain (fun _ => 0) ⟨strN "train", { windowSize := 4 }⟩ t₁ =
      subIfMain (fun _ => 0) ⟨strN "train", { windowSize := 4 }⟩ t₂) :=
  subif_even_window_fails (fun _ => 0) ⟨strN "train", { windowSize := 4 }⟩ (by decide)

/-- The state of a file at one path: absent, being written (an archive
of version v under construction), or a complete archive of version v. -/
inductive FileState where
  | absent
  | building (v : Nat)
  | completeArch (v : Nat)
deriving DecidableEq

/-- The on-disk state relevant to AutoEn.fit (dae/model.py): whether the
"check" checkpoint exists (tagged with the epoch that last improved
it), the file at the temporary archive path model_path + ".zip", and
the file at the final model_path. -/
structure DaeFs where
  ckpt : Option Nat
  tmp : FileState
  final : FileState
deriving DecidableEq

/-- Before fit: no checkpoint, no archive. -/
def daeInit : DaeFs := ⟨none, FileState.absent, FileState.absent⟩

/-- AutoEn._create_archive (lines 49-52 of dae/model.py):
shutil.make_archive writes incrementally at model_path + ".zip"
(observable intermediate state building v), and shutil.move then
renames the finished archive onto model_path in a single step. -/
def archiveSteps (v : Nat) (s : DaeFs) : List DaeFs :=
  [{ s with tmp := FileState.building v },
   { s with tmp := FileState.completeArch v },
   { s with tmp := FileState.absent, final := FileState.completeArch v }]

/-- One epoch of the fit callbacks (lines 37-44 of dae/model.py):
ModelCheckpoint overwrites "check" when validation loss improved, then
the LambdaCallback archives iff "check" exists. -/
def epochSteps (improved : Bool) (e : Nat) (s : DaeFs) : List DaeFs :=
  let s1 := if improved then { s with ckpt := some e } else s
  s1 :: (match s1.ckpt with
    | none => []
    | some v => archiveSteps v s1)

/-- The trace of on-disk states over a fit run whose epochs improved
according to the given list. -/
def daeTrace : List Bool → Nat → DaeFs → List DaeFs
  | [], _, _ => []
  | b :: bs, e, s =>
    epochSteps b e s ++ daeTrace bs (e + 1) ((epochSteps b e s).getLastD s)

/-- All states reachable during AutoEn.fit, starting from the initial one. -/
def daeRun (improves : List Bool) : List DaeFs := daeInit :: daeTrace improves 0 daeInit

/-- The temporary archive path model_path + ".zip" used by
shutil.make_archive before the move. -/
def daeTmpPath (modelPath : CName) : CName := modelPath ++ strN ".zip"

/-- The model path never holds a partially written archive. -/
def finalOk (s : DaeFs) : Prop :=
  s.final = FileState.absent ∨ ∃ v, s.final = FileState.completeArch v

theorem archiveSteps_final_ok {s1 : DaeFs} (h1 : finalOk s1) (v : Nat) :
    (∀ x ∈ archiveSteps v s1, finalOk x) ∧
      finalOk ((archiveSteps v s1).getLastD s1) := by
  refine ⟨?_, Or.inr ⟨v, rfl⟩⟩
  intro x hx
  simp only [archiveSteps, List.mem_cons, List.not_mem_nil, or_false] at hx
  rcases hx with rfl | rfl | rfl
  · exact h1
  · exact h1
  · exact Or.inr ⟨v, rfl⟩

theorem epochSteps_final_ok {s : DaeFs} (hs : finalOk s) (b : Bool) (e : Nat) :
    (∀ x ∈ epochSteps b e s, finalOk x) ∧
      finalOk ((epochSteps b e s).getLastD s) := by
  cases b with
  | false =>
    cases hc : s.ckpt with
    | none =>
      refine ⟨?_, ?_⟩
      · intro x hx
        simp only [epochSteps, Bool.false_eq_true, if_false, hc, List.mem_singleton] at hx
        subst hx
        exact hs
      · simp only [epochSteps, Bool.false_eq_true, if_false, hc]
        exact hs
    | some v =>
      have h3 := archiveSteps_final_ok hs v
      refine ⟨?_, ?_⟩
      · intro x hx
        simp only [epochSteps, Bool.false_eq_true, if_false, hc, List.mem_cons] at hx
        rcases hx with rfl | hx
        · exact hs
        · exact h3.1 x hx
      · simp only [epochSteps, Bool.false_eq_true, if_false, hc]
        exact Or.inr ⟨v, rfl⟩
  | true =>
    have hs1 : finalOk ({ s with ckpt := some e }) := hs
    have h3 := archiveSteps_final_ok hs1 e
    refine ⟨?_, ?_⟩
    · intro x hx
      simp only [epochSteps, if_true, List.mem_cons] at hx
      rcases hx with rfl | hx
      · exact hs1
      · exact h3.1 x hx
    · simp only [epochSteps, if_true]
      exact Or.inr ⟨e, rfl⟩

theorem daeTrace_final_ok :
    ∀ (improves : List Bool) (e : Nat) (s : DaeFs), finalOk s →
      ∀ x ∈ daeTrace improves e s, finalOk x
  | [], _, _, _ => by
    intro x hx
    simp [daeTrace] at hx
  | b :: bs, e, s, hs => by
    intro x hx
    simp only [daeTrace] at hx
    rcases List.mem_append.mp hx with h | h
    · exact (epochSteps_final_ok hs b e).1 x h
    · exact daeTrace_final_ok bs (e + 1) _ (epochSteps_final_ok hs b e).2 x h

theorem daeTrace_no_ckpt :
    ∀ (improves : List Bool) (e : Nat) (s : DaeFs), s.ckpt = none →
      (∀ b ∈ improves, b = false) → ∀ x ∈ daeTrace improves e s, x = s
  | [], _, _, _, _ => by
    intro x hx
    simp [daeTrace] at hx
  | b :: bs, e, s, hc, hb => by
    intro x hx
    have hbf : b = false := hb b (List.mem_cons_self b bs)
    subst hbf
    simp only [daeTrace] at hx
    have hsteps : epochSteps false e s = [s] := by
      simp [epochSteps, hc]
    rw [hsteps] at hx
    rcases List.mem_append.mp hx with h | h
    · simpa using h
    · exact daeTrace_no_ckpt bs (e + 1) s hc
        (fun b' hb' => hb b' (List.mem_cons_of_mem _ hb')) x h

/-- C8: in every state reachable during reconstruction-detector
training, the final model path never holds a partially written archive
(it is the previous complete archive, the new complete archive, or
still absent before the first one); if no epoch ever creates the
checkpoint, no archive is ever produced at the model path; the archive
is built at the temporary path model_path + ".zip", which differs from
the final path; and every epoch at whose start or during which the
checkpoint exists ends with a complete archive at the model path. -/
theorem dae_archive_atomic
    (improves : List Bool) (s : DaeFs) (hs : s ∈ daeRun improves) :
    (∀ v, s.final ≠ FileState.building v) ∧
    ((∀ b ∈ improves, b = false) → s.final = FileState.absent) ∧
    (∀ m : CName, daeTmpPath m ≠ m) ∧
    (∀ (b : Bool) (e : Nat) (st : DaeFs), (st.ckpt.isSome = true ∨ b = true) →
      ∃ v, ((epochSteps b e st).getLastD st).final = FileState.completeArch v) := by
  have hok : finalOk s := by
    rcases List.mem_cons.mp hs with rfl | h
    · exact Or.inl rfl
    · exact daeTrace_final_ok improves 0 daeInit (Or.inl rfl) s h
  refine ⟨?_, ?_, ?_, ?_⟩
  · intro v hcontra
    rcases hok with h | ⟨v', h⟩
    · rw [hcontra] at h
      exact FileState.noConfusion h
    · rw [hcontra] at h
      exact FileState.noConfusion h
  · intro hb
    rcases List.mem_cons.mp hs with rfl | h
    · rfl
    · rw [daeTrace_no_ckpt improves 0 daeInit rfl hb s h]
      rfl
  · intro m hcontra
    have h2 := congrArg List.length hcontra
    rw [daeTmpPath, List.length_append] at h2
    have hz : (strN ".zip").length = 4 := by decide
    omega
  · intro b e st hex
    cases b with
    | true => exact ⟨e, rfl⟩
    | false =>
      rcases hex with hex | hex
      · obtain ⟨v, hv⟩ := Option.isSome_iff_exists.mp hex
        refine ⟨v, ?_⟩
        simp only [epochSteps, Bool.false_eq_true, if_false, hv]
        rfl
      · exact absurd hex (by simp)

/-- C8 witness: a single improving epoch; the reachable state after the
move holds the complete archive of epoch 0 at the model path. -/
theorem dae_archive_atomic_witness :
    (∀ v, (⟨some 0, FileState.absent, FileState.completeArch 0⟩ : DaeFs).final ≠
      FileState.building v) ∧
    ((∀ b ∈ [true], b = false) →
      (⟨some 0, FileState.absent, FileState.completeArch 0⟩ : DaeFs).final =
        FileState.absent) ∧
    (∀ m : CName, daeTmpPath m ≠ m) ∧
    (∀ (b : Bool) (e : Nat) (st : DaeFs), (st.ckpt.isSome = true ∨ b = true) →
      ∃ v, ((epochSteps b e st).getLastD st).final = FileState.completeArch v) :=
  dae_archive_atomic [true] ⟨some 0, FileState.absent, FileState.completeArch 0⟩ (by decide)
